import Mathlib

/-!
Verification of the reactive generation pipeline (dual-yent orchestrator,
dissonance engine, diffusion scheduler, post-processor, HTTP handler).

Go source present in the repository snapshot: `dual_yent.go`, `server.go`
(plus test files).  Components whose implementation files are absent from
the snapshot (dissonance engine, scheduler, latent init, post-processing
passes) are modelled from the specification; their doc comments say so.

Modelling conventions: Go `float32`/`float64` arithmetic is embedded as
exact rationals (ℚ); Go strings are embedded as `String`/`List Char`
(the style separators searched by `strings.Index` are pure ASCII, so
byte-level search in UTF-8 coincides with character-level search);
mutation is embedded as explicit state passing.
-/

/-- Boolean test that `n` is a leading segment of `s` (character-wise). -/
def isPre : List Char → List Char → Bool
  | [], _ => true
  | _ :: _, [] => false
  | a :: n, b :: s => a == b && isPre n s

/-- Embedding of Go `strings.Index`: index of the first occurrence of
`needle` in the haystack, `none` when absent. -/
def strIndexL (needle : List Char) : List Char → Option Nat
  | [] => if isPre needle [] then some 0 else none
  | c :: t => if isPre needle (c :: t) then some 0 else (strIndexL needle t).map (· + 1)

/-- One step of the `React` truncation loop (`dual_yent.go`, lines 95-101):
`if idx := strings.Index(yentWords, sep); idx >= 0 { yentWords = yentWords[:idx] }`. -/
def truncAtSep (s sep : List Char) : List Char :=
  match strIndexL sep s with
  | some i => s.take i
  | none => s

/-- The fixed style-suffix separator list of `React` (`dual_yent.go`, lines 95-97),
in source order. -/
def styleSeparators : List String :=
  [", oil painting", ", abstract ", ", dark symbolic",
   ", street art", ", surreal", ", Soviet poster", ", Picasso",
   ", social realism", ", propaganda", ", caricature"]

/-- The separator list as character lists. -/
def sepsL : List (List Char) := styleSeparators.map String.data

/-- Embedding of the whole truncation loop of `React`: fold the one-step
truncation over the separator list, starting from the artist's raw output. -/
def extractYentWords (p : String) : String :=
  ⟨sepsL.foldl truncAtSep p.data⟩

/-- First-occurrence index of `sep` in `s`, defaulting to `s.length` when absent. -/
def idxOrLen (sep s : List Char) : Nat :=
  (strIndexL sep s).getD s.length

/-- Minimal index, over a whole separator list, of any occurrence in `s`
(`s.length` when none occurs). -/
def minCutAll (seps : List (List Char)) (s : List Char) : Nat :=
  seps.foldr (fun sep acc => min (idxOrLen sep s) acc) s.length

/-- The claim's description of `YentWords`: the artist output truncated at the
first occurrence (minimal index over the whole delimiter list) of any
style-suffix delimiter, unchanged when none occurs.  Stated from the spec's
words, to be compared with the source-derived `extractYentWords`. -/
def specYentWords (p : String) : String :=
  ⟨p.data.take (minCutAll sepsL p.data)⟩

/-- Well-formedness of a style separator: non-empty, starts with a comma, and
contains no further comma.  Every entry of the source separator list has this
shape; it is what makes the source's sequential truncation loop agree with
the spec's minimal-index description. -/
def SepOk (sep : List Char) : Prop :=
  sep ≠ [] ∧ sep.headD ' ' = ',' ∧ ',' ∉ sep.tail

instance (sep : List Char) : Decidable (SepOk sep) := by
  unfold SepOk; infer_instance

/-- Emit the completed word accumulated (in reverse) by the splitter, if any. -/
def flushWord (acc : List Char) : List String :=
  if acc.isEmpty then [] else [String.mk acc.reverse]

/-- Whitespace splitter with per-character case folding (structural recursion,
so that concrete inputs evaluate inside the kernel). -/
def wordsAux : List Char → List Char → List String
  | [], acc => flushWord acc
  | c :: rest, acc =>
    if c.isWhitespace then flushWord acc ++ wordsAux rest []
    else wordsAux rest (c.toLower :: acc)

/-- Per-generator word list, modelled from the spec (§4.1 step 1):
whitespace-delimited case-folded words of the input. -/
def wordsOf (text : String) : List String :=
  wordsAux text.data []

/-- Adjacent word bigrams, modelled from the spec (§4.1 step 1). -/
def bigramsOf : List String → List String
  | a :: b :: rest => (a ++ " " ++ b) :: bigramsOf (b :: rest)
  | _ => []

/-- Adjacent word trigrams, modelled from the spec (§4.1 step 1). -/
def trigramsOf : List String → List String
  | a :: b :: c :: rest => (a ++ " " ++ b ++ " " ++ c) :: trigramsOf (b :: c :: rest)
  | _ => []

/-- Modelled from the spec: `extractTrigrams` (implementation file absent from
the snapshot; only its tests are present) — every word, adjacent bigram and
adjacent trigram of the input, collected as one feature set (§4.1 step 1). -/
def extractTrigrams (text : String) : Finset String :=
  (wordsOf text ++ bigramsOf (wordsOf text) ++ trigramsOf (wordsOf text)).toFinset

/-- Modelled from the spec: `jaccardSimilarity` (implementation file absent from
the snapshot) — Jaccard index of two feature sets, `0` for the empty-empty
case (§4.1 step 2). -/
def jaccardSimilarity (a b : Finset String) : ℚ :=
  if (a ∪ b).card = 0 then 0 else ((a ∩ b).card : ℚ) / ((a ∪ b).card : ℚ)

/-- Modelled from the spec: the fixed arousal lexicon of emotionally charged
words (§4.1 step 5, with the members listed there and in the tests). -/
def arousalWords : Finset String :=
  {"hate", "love", "die", "fuck", "sad", "angry"}

/-- Pulse snapshot `{Novelty, Arousal, Entropy}` (spec §3). -/
structure Pulse where
  Novelty : ℚ
  Arousal : ℚ
  Entropy : ℚ
deriving Repr

/-- Dissonance engine state: decaying word cloud (key set plus weights) and
boredom counter (spec §3, `DissonanceState`). -/
structure DissonanceState where
  cloudKeys : Finset String
  cloudW : String → ℚ
  boredomCount : Nat

/-- Fresh engine: empty cloud, zero counter. -/
def freshEngine : DissonanceState :=
  ⟨∅, fun _ => 0, 0⟩

/-- Clamp a rational to a closed interval. -/
def clampQ (lo hi x : ℚ) : ℚ :=
  max lo (min hi x)

/-- Similarity threshold above which an input is a recognized repeat
(spec §4.1 step 4; a named "feel" tunable per §9). -/
def simThreshold : ℚ := 4/5

/-- Boredom counter threshold (spec §4.1 step 4 fixes it at 2). -/
def boredomLimit : Nat := 2

/-- Dissonance decrement applied to a recognized repeat (named tunable, §9). -/
def boredomPenalty : ℚ := 3/10

/-- Dissonance boost applied once the boredom counter reaches its threshold
(named tunable, §9; chosen so that boosted dissonance lands at `3/5 ≥ 1/2`,
as the spec's testable property demands). -/
def boredomBoost : ℚ := 9/10

/-- Blend factor pushing current-input feature weights toward 1 (§4.1 step 7). -/
def blendFactor : ℚ := 3/10

/-- Multiplicative decay factor for the other cloud entries (§4.1 step 7). -/
def decayFactor : ℚ := 95/100

/-- Normalized spread of the word histogram: 0 when all tokens are identical
(or the input has at most one word), 1 when all are distinct.  Stands in for
the spec's normalized Shannon entropy (§4.1 step 6), which needs a real
logarithm; no claim depends on interior values, only on the endpoints the
spec fixes, which this computable surrogate shares. -/
def entropyOf (ws : List String) : ℚ :=
  if ws.length ≤ 1 then 0
  else ((ws.toFinset.card - 1 : ℕ) : ℚ) / ((ws.length - 1 : ℕ) : ℚ)

/-- Arousal: fraction of input words found in the arousal lexicon, saturating
at 1 (§4.1 step 5); 0 for an empty word list. -/
def arousalOf (ws : List String) : ℚ :=
  if ws.length = 0 then 0
  else min 1 (((ws.filter (fun w => w ∈ arousalWords)).length : ℚ) / (ws.length : ℚ))

/-- Modelled from the spec: `computeDissonance` (implementation file absent
from the snapshot; only its tests are present).  Follows §4.1: extract
features, score Jaccard similarity against the cloud key set, base dissonance
`1 − similarity`, boredom rule (decrement and count up on a recognized repeat,
boost once the counter reaches its threshold, reset the counter on novel
input), pulse snapshot, then cloud morphing (blend current features toward 1,
decay the rest) after scoring.  Returns `(dissonance, pulse, new state)`. -/
def computeDissonance (st : DissonanceState) (text : String) : ℚ × Pulse × DissonanceState :=
  let F := extractTrigrams text
  let ws := wordsOf text
  let sim := jaccardSimilarity F st.cloudKeys
  let repeatHit := simThreshold < sim
  let count' := if repeatHit then st.boredomCount + 1 else 0
  let d1 := if repeatHit then 1 - sim - boredomPenalty else 1 - sim
  let d2 := if repeatHit ∧ boredomLimit ≤ count' then d1 + boredomBoost else d1
  let d := clampQ 0 1 d2
  let pulse : Pulse :=
    { Novelty := clampQ 0 1 (1 - sim)
      Arousal := arousalOf ws
      Entropy := entropyOf ws }
  let cloudW' : String → ℚ := fun s =>
    if s ∈ F then st.cloudW s * (1 - blendFactor) + blendFactor
    else st.cloudW s * decayFactor
  (d, pulse, ⟨st.cloudKeys ∪ F, cloudW', count'⟩)

/-- Modelled from the spec: `adaptTemperature` (implementation file absent from
the snapshot) — combines the base temperature, a positive adjustment
proportional to dissonance, and a boredom escalation term, clamped to
`[0.3, 1.5]` (§4.2).  Returns the temperature and the engine state as left by
the internal dissonance computation. -/
def adaptTemperature (st : DissonanceState) (text : String) (baseTemp : ℚ) : ℚ × DissonanceState :=
  let r := computeDissonance st text
  let boredomTerm : ℚ := if boredomLimit ≤ r.2.2.boredomCount then 3/10 else 0
  (clampQ (3/10) (3/2) (baseTemp + (2/5) * r.1 + boredomTerm), r.2.2)

/-- Feed the same input `n` times through `computeDissonance` on a fresh
engine; returns the dissonance of the latest call and the final state
(the dissonance slot is 1 for `n = 0`, before any call). -/
def runDissonance (text : String) : Nat → ℚ × DissonanceState
  | 0 => (1, freshEngine)
  | n + 1 =>
    let p := runDissonance text n
    let r := computeDissonance p.2 text
    (r.1, r.2.2)

/-- Result record of one dual-yent interaction (`dual_yent.go`, lines 52-57). -/
structure DualResult where
  Prompt : String
  YentWords : String
  Roast : String
  ArtistID : String
deriving Repr, DecidableEq

/-- One prompt generator: its two text-generation entry points (external
capabilities per spec §6, taken as oracle functions of their visible inputs)
and its embedded dissonance engine. -/
structure PromptGeneratorM where
  react : String → Nat → ℚ → String
  roast : String → Nat → ℚ → String
  engine : DissonanceState

/-- Orchestrator state (`dual_yent.go`, lines 21-26): the two generators and
the turn counter.  The unused `rng` field plays no part in `React` and is
omitted. -/
structure DualYentM where
  A : PromptGeneratorM
  B : PromptGeneratorM
  turn : Nat

/-- Embedding of `DualYent.React` (`dual_yent.go`, lines 60-109): increment
the turn counter, pick artist and commentator by the parity of the
incremented counter, run both generators (concurrently in Go, joined before
the return, so their outputs compose as pure function applications here),
truncate the artist output at the style separators for the overlay words.
Returns the new orchestrator state and the combined result. -/
def DualYentM.React (dy : DualYentM) (userInput : String) (maxTokens : Nat)
    (temperature : ℚ) : DualYentM × DualResult :=
  let turn' := dy.turn + 1
  let artist := if turn' % 2 = 0 then dy.A else dy.B
  let commentator := if turn' % 2 = 0 then dy.B else dy.A
  let artistID := if turn' % 2 = 0 then "A" else "B"
  let prompt := artist.react userInput maxTokens temperature
  let roastText := commentator.roast userInput 50 (temperature + 1/5)
  ({ dy with turn := turn' },
   { Prompt := prompt
     YentWords := extractYentWords prompt
     Roast := roastText
     ArtistID := artistID })

/-- Scheduler state (spec §3): training-schedule size, beta range, cached
cumulative alpha products. -/
structure DDIMScheduler where
  NumTrainTimesteps : Nat
  BetaStart : ℚ
  BetaEnd : ℚ
  alphasCumprod : List ℚ

/-- Modelled from the spec: the linear beta schedule of length
`NumTrainTimesteps` derived at construction (§4.4). -/
def ddimBetas (n : Nat) (bs be : ℚ) : List ℚ :=
  (List.range n).map (fun i => bs + (be - bs) * (i : ℚ) / ((n : ℚ) - 1))

/-- Cumulative products of `1 − β_i` (§4.4). -/
def cumprodAlphas (betas : List ℚ) : List ℚ :=
  (betas.scanl (fun acc b => acc * (1 - b)) 1).tail

/-- Modelled from the spec: `NewDDIMScheduler` (implementation file absent
from the snapshot; only its tests are present) — fix the schedule parameters
and derive the coefficient table once (§4.4). -/
def NewDDIMScheduler (n : Nat) (bs be : ℚ) : DDIMScheduler :=
  ⟨n, bs, be, cumprodAlphas (ddimBetas n bs be)⟩

/-- Modelled from the spec: `SetTimesteps` (implementation file absent from
the snapshot) — map the training schedule to `n` evenly spaced indices from
`NumTrainTimesteps − 1` down to 0, strictly decreasing (§4.4). -/
def DDIMScheduler.SetTimesteps (s : DDIMScheduler) (n : Nat) : List Nat :=
  (List.range n).map (fun i => (s.NumTrainTimesteps - 1) - i * ((s.NumTrainTimesteps - 1) / (n - 1)))

/-- Tensor: flat rational data plus shape, channel-major (spec §3). -/
structure Tensor where
  Data : List ℚ
  Shape : List Nat
deriving Repr, DecidableEq

/-- A 64-bit linear congruential step, standing in for the seeded Go PRNG. -/
def lcgNext (s : Nat) : Nat :=
  (6364136223846793005 * s + 1442695040888963407) % 18446744073709551616

/-- Map a PRNG state to a sample value in `[-1, 1]` centred at 0. -/
def latValue (s : Nat) : ℚ :=
  ((s % 2001 : Nat) : ℚ) / 1000 - 1

/-- Deterministic sample stream of a given length from a given seed. -/
def noiseStream : Nat → Nat → List ℚ
  | _, 0 => []
  | s, n + 1 => latValue (lcgNext s) :: noiseStream (lcgNext s) n

/-- Modelled from the spec: `randomLatent` (implementation file absent from the
snapshot; only its tests are present) — a reproducible pseudo-random tensor of
shape `(batch, channels, height, width)` keyed by an explicit seed; the seed
is the sole source of variability (§4.4). -/
def randomLatent (batch channels height width seed : Nat) : Tensor :=
  ⟨noiseStream seed (batch * channels * height * width), [batch, channels, height, width]⟩

/-- One RGBA pixel, byte channels embedded as naturals in `[0, 255]`. -/
structure RGBA where
  r : Nat
  g : Nat
  b : Nat
  a : Nat
deriving Repr, DecidableEq

/-- Pixel image: dimensions plus a pixel map. -/
structure Image where
  width : Nat
  height : Nat
  pix : Nat → Nat → RGBA

/-- Embedding of `cloneRGBA`: an independent copy of the image buffer. -/
def cloneRGBA (img : Image) : Image :=
  ⟨img.width, img.height, img.pix⟩

/-- Clamp an integer coordinate into `[0, w-1]`. -/
def clampCoord (v : ℤ) (w : Nat) : Nat :=
  (max 0 (min ((w : ℤ) - 1) v)).toNat

/-- Clamp an integer channel value into `[0, 255]` (the Go `clamp8`). -/
def clamp8 (z : ℤ) : Nat :=
  (max 0 (min 255 z)).toNat

/-- Grayscale value of a pixel (mean of the colour channels, in ℚ). -/
def grayAt (img : Image) (x y : Nat) : ℚ :=
  (((img.pix x y).r : ℚ) + ((img.pix x y).g : ℚ) + ((img.pix x y).b : ℚ)) / 3

/-- Modelled from the spec: gradient magnitude by central finite differences,
zero on border pixels (§4.6 step 1). -/
def gradMagAt (img : Image) (x y : Nat) : ℚ :=
  if x = 0 ∨ y = 0 ∨ img.width ≤ x + 1 ∨ img.height ≤ y + 1 then 0
  else |grayAt img (x + 1) y - grayAt img (x - 1) y| +
       |grayAt img x (y + 1) - grayAt img x (y - 1)|

/-- Modelled from the spec: per-pixel artifact score in `[0, 1]` derived from
the gradient statistics (§4.6 steps 2-3; the block/percentile normalization
is condensed to a normalized gradient map — no claim under verification
depends on its interior values). -/
def artifactScoreAt (img : Image) (x y : Nat) : ℚ :=
  min 1 (gradMagAt img x y / 255)

/-- Modelled from the spec: film grain — deterministic seeded per-pixel
additive noise (§4.6 step 4). -/
def applyFilmGrain (img : Image) (strength seed : Nat) : Image :=
  ⟨img.width, img.height, fun x y =>
    let z := lcgNext (seed + x * 31 + y * 131)
    let delta : ℤ := ((z % (2 * strength + 1) : Nat) : ℤ) - (strength : ℤ)
    let p := img.pix x y
    { r := clamp8 ((p.r : ℤ) + delta)
      g := clamp8 ((p.g : ℤ) + delta)
      b := clamp8 ((p.b : ℤ) + delta)
      a := p.a }⟩

/-- Modelled from the spec: `applyChromaticAberration` (implementation file
absent from the snapshot; only its tests are present) — shift the red and
blue channels by a fixed pixel offset in opposite directions, sampling
clamped at the image border; the green channel is left untouched (§4.6). -/
def applyChromaticAberration (img : Image) (shift : Nat) : Image :=
  ⟨img.width, img.height, fun x y =>
    let p := img.pix x y
    { r := (img.pix (clampCoord ((x : ℤ) + (shift : ℤ)) img.width) y).r
      g := p.g
      b := (img.pix (clampCoord ((x : ℤ) - (shift : ℤ)) img.width) y).b
      a := p.a }⟩

/-- Modelled from the spec: vignette — multiplicative darkening growing with
squared radial distance from the image centre (§4.6). -/
def applyVignette (img : Image) (strength : ℚ) : Image :=
  ⟨img.width, img.height, fun x y =>
    let dx : ℚ := 2 * (x : ℚ) - ((img.width : ℚ) - 1)
    let dy : ℚ := 2 * (y : ℚ) - ((img.height : ℚ) - 1)
    let m2 : ℚ := ((img.width : ℚ) - 1) ^ 2 + ((img.height : ℚ) - 1) ^ 2
    let factor : ℚ := if m2 = 0 then 1 else max 0 (1 - strength * (dx ^ 2 + dy ^ 2) / (4 * m2))
    let p := img.pix x y
    { r := clamp8 ⌊(p.r : ℚ) * factor⌋
      g := clamp8 ⌊(p.g : ℚ) * factor⌋
      b := clamp8 ⌊(p.b : ℚ) * factor⌋
      a := p.a }⟩

/-- Simple deterministic string hash used to key the overlay glyph mask. -/
def stringHash (s : String) : Nat :=
  s.data.foldl (fun a c => (a * 131 + c.toNat) % 1000003) 7

/-- Modelled from the spec: ASCII overlay — blend a low-resolution glyph grid
derived from the overlay words over high-artifact-score regions (§4.6). -/
def applyAsciiOverlay (img : Image) (words : String) (score : Nat → Nat → ℚ) : Image :=
  ⟨img.width, img.height, fun x y =>
    let p := img.pix x y
    let onGlyph := (stringHash words + x / 8 + (y / 8) * 7) % 5 = 0
    if 1/2 < score x y ∧ onGlyph then
      { r := p.r / 2, g := p.g / 2, b := p.b / 2, a := p.a }
    else p⟩

/-- Modelled from the spec: `PostProcess` (implementation file absent from the
snapshot; only its tests are present) — score artifacts, then run the
stylization passes (grain, chromatic aberration, vignette, ASCII overlay)
in place on a working copy of the input (§4.6). -/
def PostProcess (img : Image) (overlayWords : String) : Image :=
  let work := cloneRGBA img
  let score := fun x y => artifactScoreAt work x y
  applyAsciiOverlay
    (applyVignette (applyChromaticAberration (applyFilmGrain work 22 42) 2) (35/100))
    overlayWords score

/-- State-passing view of the `PostProcess` call: the pair holds the caller's
input buffer as the call leaves it, and the returned image.  In-place
mutation of the working copy is internal; the input buffer is read, never
written (§4.6: "the function must not mutate its input argument"). -/
def PostProcessRun (img : Image) (overlayWords : String) : Image × Image :=
  (img, PostProcess img overlayWords)

/-- HTTP method of an incoming request, as far as the handler inspects it. -/
inductive HttpMethod where
  | get
  | post
  | put
  | delete
  | head
deriving Repr, DecidableEq

/-- Decoded JSON body of `/react` (`server.go`, lines 35-39). -/
structure ReactRequest where
  input : String
  temperature : ℚ
  maxTokens : ℤ
deriving Repr, DecidableEq

/-- Server state touched by `handleReact` (`server.go`, lines 25-32): the
dual-yent orchestrator (whose generators carry the dissonance engines) and
the in-memory image cache. -/
structure ServerState where
  dy : DualYentM
  images : List (String × List Nat)

/-- Outcome of one handler call: the server state after the call, the HTTP
status written, and whether generation was invoked. -/
structure HandleOutcome where
  state : ServerState
  status : Nat
  generationInvoked : Bool

/-- Embedding of `Server.handleReact` (`server.go`, lines 115-176).  The JSON
decoder is external; its result is taken as `Option ReactRequest` (`none` for
a body that is not valid JSON).  Branches, in source order: non-POST → 405;
decode failure → 400; empty `Input` → 400 — each returning before any
generation or state change.  The success path applies the defaults, runs
`React`, recomputes dissonance and temperature on engine A for display, and
caches a generated image under a fresh id (image synthesis `tryGenerateImage`
is an oracle: it touches the filesystem and the external denoiser). -/
def handleReact (imgGen : String → Option (List Nat)) (newId : String)
    (st : ServerState) (m : HttpMethod) (body : Option ReactRequest) : HandleOutcome :=
  if m ≠ HttpMethod.post then ⟨st, 405, false⟩
  else
    match body with
    | none => ⟨st, 400, false⟩
    | some req =>
      if req.input = "" then ⟨st, 400, false⟩
      else
        let maxTokens : ℤ := if req.maxTokens ≤ 0 then 30 else req.maxTokens
        let temp : ℚ := if req.temperature ≤ 0 then 4/5 else req.temperature
        let rr := st.dy.React req.input maxTokens.toNat temp
        let dy1 := rr.1
        let result := rr.2
        let cd := computeDissonance dy1.A.engine req.input
        let at1 := adaptTemperature cd.2.2 req.input temp
        let dyFinal := { dy1 with A := { dy1.A with engine := at1.2 } }
        let images' :=
          match imgGen result.Prompt with
          | some data => (newId, data) :: st.images
          | none => st.images
        ⟨⟨dyFinal, images'⟩, 200, true⟩

/-- Trivial text generator used for concrete instantiations. -/
def g0 : String → Nat → ℚ → String := fun _ _ _ => ""

/-- A concrete prompt generator with a fresh engine. -/
def pg0 : PromptGeneratorM := ⟨g0, g0, freshEngine⟩

/-- A concrete server state: fresh orchestrator, empty image cache. -/
def st0 : ServerState := ⟨⟨pg0, pg0, 0⟩, []⟩

lemma noiseStream_length (n : Nat) : ∀ s, (noiseStream s n).length = n := by
  induction n with
  | zero => intro s; rfl
  | succ k ih => intro s; simp [noiseStream, ih]

/-- C1: every `React` call on one orchestrator increments the turn counter by
exactly one; the artist and `ArtistID` are determined solely by the parity of
the incremented counter (model A and "A" when even, model B and "B" when
odd); and the `ArtistID` of the immediately following `React` call differs,
so consecutive artist identities strictly alternate — role selection is a
pure function of the counter, with no randomness. -/
theorem react_turn_parity_alternation (dy : DualYentM) (input input2 : String)
    (mt mt2 : Nat) (temp temp2 : ℚ) :
    (dy.React input mt temp).1.turn = dy.turn + 1 ∧
    (dy.React input mt temp).2.ArtistID = (if (dy.turn + 1) % 2 = 0 then "A" else "B") ∧
    (dy.React input mt temp).2.Prompt =
      (if (dy.turn + 1) % 2 = 0 then dy.A else dy.B).react input mt temp ∧
    ((dy.React input mt temp).1.React input2 mt2 temp2).2.ArtistID ≠
      (dy.React input mt temp).2.ArtistID := by
  refine ⟨rfl, rfl, rfl, ?_⟩
  by_cases h : (dy.turn + 1) % 2 = 0
  · have h2 : ¬((dy.turn + 1 + 1) % 2 = 0) := by omega
    simp [DualYentM.React, h, h2]
  · have h2 : (dy.turn + 1 + 1) % 2 = 0 := by omega
    simp [DualYentM.React, h, h2]

/-- C4: for every input string (including the empty string), every base
temperature and every engine state, `adaptTemperature` returns a value in
the closed interval `[0.3, 1.5]`. -/
theorem adaptTemperature_range (st : DissonanceState) (text : String) (baseTemp : ℚ) :
    3/10 ≤ (adaptTemperature st text baseTemp).1 ∧
    (adaptTemperature st text baseTemp).1 ≤ 3/2 := by
  unfold adaptTemperature clampQ
  exact ⟨le_max_left _ _, max_le (by norm_num) (min_le_left _ _)⟩

/-- C5: on a scheduler built with 1000 training timesteps (betas 0.00085 and
0.012 as in the test), `SetTimesteps 10` returns exactly 10 strictly
decreasing integers, the first at least 500 and the last at most 200. -/
theorem setTimesteps_1000_10 :
    ((NewDDIMScheduler 1000 (17/20000) (3/250)).SetTimesteps 10).length = 10 ∧
    List.Chain' (fun a b => b < a) ((NewDDIMScheduler 1000 (17/20000) (3/250)).SetTimesteps 10) ∧
    500 ≤ ((NewDDIMScheduler 1000 (17/20000) (3/250)).SetTimesteps 10).headD 0 ∧
    ((NewDDIMScheduler 1000 (17/20000) (3/250)).SetTimesteps 10).getLastD 999 ≤ 200 := by
  have hts : (NewDDIMScheduler 1000 (17/20000) (3/250)).SetTimesteps 10 =
      [999, 888, 777, 666, 555, 444, 333, 222, 111, 0] := by decide
  rw [hts]
  refine ⟨rfl, ?_, by decide, by decide⟩
  norm_num [List.chain'_cons]

/-- C6: `randomLatent` is a pure function of its arguments — two calls with
identical seed and shape yield element-for-element identical tensors — and
the data buffer holds exactly `batch * channels * height * width` samples. -/
theorem randomLatent_deterministic_sized (batch channels height width seed : Nat) :
    randomLatent batch channels height width seed =
      randomLatent batch channels height width seed ∧
    (randomLatent batch channels height width seed).Data.length =
      batch * channels * height * width :=
  ⟨rfl, noiseStream_length _ seed⟩

lemma applyFilmGrain_dims (img : Image) (s t : Nat) :
    (applyFilmGrain img s t).width = img.width ∧
    (applyFilmGrain img s t).height = img.height :=
  ⟨rfl, rfl⟩

lemma applyChromaticAberration_dims (img : Image) (shift : Nat) :
    (applyChromaticAberration img shift).width = img.width ∧
    (applyChromaticAberration img shift).height = img.height :=
  ⟨rfl, rfl⟩

lemma applyVignette_dims (img : Image) (strength : ℚ) :
    (applyVignette img strength).width = img.width ∧
    (applyVignette img strength).height = img.height :=
  ⟨rfl, rfl⟩

lemma applyAsciiOverlay_dims (img : Image) (words : String) (score : Nat → Nat → ℚ) :
    (applyAsciiOverlay img words score).width = img.width ∧
    (applyAsciiOverlay img words score).height = img.height :=
  ⟨rfl, rfl⟩

/-- C7: the `PostProcess` call leaves the caller's input image unchanged (all
stylization passes act on a working copy) and returns an image whose width
and height equal the input's. -/
theorem postProcess_input_preserved_dims (img : Image) (overlayWords : String) :
    (PostProcessRun img overlayWords).1 = img ∧
    (PostProcessRun img overlayWords).2.width = img.width ∧
    (PostProcessRun img overlayWords).2.height = img.height := by
  have h : (PostProcessRun img overlayWords).2 =
      applyAsciiOverlay
        (applyVignette (applyChromaticAberration (applyFilmGrain (cloneRGBA img) 22 42) 2)
          (35/100))
        overlayWords (fun x y => artifactScoreAt (cloneRGBA img) x y) := rfl
  refine ⟨rfl, ?_, ?_⟩
  · rw [h, (applyAsciiOverlay_dims _ _ _).1, (applyVignette_dims _ _).1,
      (applyChromaticAberration_dims _ _).1, (applyFilmGrain_dims _ _ _).1]
    rfl
  · rw [h, (applyAsciiOverlay_dims _ _ _).2, (applyVignette_dims _ _).2,
      (applyChromaticAberration_dims _ _).2, (applyFilmGrain_dims _ _ _).2]
    rfl

/-- C9: `applyChromaticAberration` leaves the green channel of every pixel
bit-identical to the source image, for every image and every shift offset. -/
theorem chromaticAberration_green_unchanged (img : Image) (shift x y : Nat) :
    ((applyChromaticAberration img shift).pix x y).g = (img.pix x y).g :=
  rfl

/-- C10: `handleReact` answers 405 to any non-POST method, 400 to a body that
fails JSON decoding, and 400 to a decoded body with empty `Input`; in each of
these cases it returns before invoking generation, leaving the orchestrator
(turn counter and engines) and the image cache unchanged. -/
theorem handleReact_error_paths (imgGen : String → Option (List Nat)) (newId : String)
    (st : ServerState) (m : HttpMethod) (body : Option ReactRequest) :
    (m ≠ HttpMethod.post → handleReact imgGen newId st m body = ⟨st, 405, false⟩) ∧
    (m = HttpMethod.post → body = none → handleReact imgGen newId st m body = ⟨st, 400, false⟩) ∧
    (∀ req, m = HttpMethod.post → body = some req → req.input = "" →
      handleReact imgGen newId st m body = ⟨st, 400, false⟩) := by
  refine ⟨fun h => ?_, fun hm hb => ?_, fun req hm hb hi => ?_⟩
  · simp [handleReact, h]
  · subst hm; subst hb; simp [handleReact]
  · subst hm; subst hb; simp [handleReact, hi]

set_option maxRecDepth 4000 in
/-- Concrete instantiation of the `handleReact` error-path theorem. -/
theorem handleReact_error_paths_witness :
    handleReact (fun _ => none) "id" st0 HttpMethod.get none = ⟨st0, 405, false⟩ ∧
    handleReact (fun _ => none) "id" st0 HttpMethod.post none = ⟨st0, 400, false⟩ ∧
    handleReact (fun _ => none) "id" st0 HttpMethod.post (some ⟨"", 0, 0⟩) = ⟨st0, 400, false⟩ :=
  ⟨(handleReact_error_paths (fun _ => none) "id" st0 HttpMethod.get none).1 (by decide),
   (handleReact_error_paths (fun _ => none) "id" st0 HttpMethod.post none).2.1 rfl rfl,
   (handleReact_error_paths (fun _ => none) "id" st0 HttpMethod.post
      (some ⟨"", 0, 0⟩)).2.2 ⟨"", 0, 0⟩ rfl rfl rfl⟩

/-- C8 counterexample: for the empty text the feature set is empty and the
Jaccard similarity of the set with itself is 0 (by the empty-empty
convention), not 1 — refuting "for all texts A" as stated. -/
theorem jaccard_self_empty_counterexample :
    jaccardSimilarity (extractTrigrams "") (extractTrigrams "") ≠ 1 := by
  decide

/-- C8 (amended): for every text whose feature set is nonempty, the Jaccard
similarity of its feature set with itself is 1; any two feature sets with
empty intersection (in particular two empty sets) have similarity 0. -/
theorem jaccard_identity_and_disjoint :
    (∀ A : String, extractTrigrams A ≠ ∅ →
      jaccardSimilarity (extractTrigrams A) (extractTrigrams A) = 1) ∧
    (∀ a b : Finset String, a ∩ b = ∅ → jaccardSimilarity a b = 0) ∧
    jaccardSimilarity ∅ ∅ = 0 := by
  refine ⟨fun A hA => ?_, fun a b hab => ?_, by simp [jaccardSimilarity]⟩
  · have hcard : (extractTrigrams A).card ≠ 0 := by
      simpa [Finset.card_eq_zero] using hA
    simp only [jaccardSimilarity, Finset.union_self, Finset.inter_self, hcard, if_false]
    exact div_self (by exact_mod_cast hcard)
  · simp [jaccardSimilarity, hab]

/-- Concrete instantiation of the amended Jaccard properties. -/
theorem jaccard_identity_and_disjoint_witness :
    jaccardSimilarity (extractTrigrams "hello world") (extractTrigrams "hello world") = 1 ∧
    jaccardSimilarity {"a"} {"b"} = 0 ∧
    jaccardSimilarity ∅ ∅ = 0 :=
  ⟨jaccard_identity_and_disjoint.1 "hello world" (by decide),
   jaccard_identity_and_disjoint.2.1 {"a"} {"b"} (by decide),
   jaccard_identity_and_disjoint.2.2⟩

lemma jaccard_self_of_ne_empty {F : Finset String} (hF : F ≠ ∅) :
    jaccardSimilarity F F = 1 := by
  have hcard : F.card ≠ 0 := by simpa [Finset.card_eq_zero] using hF
  simp only [jaccardSimilarity, Finset.union_self, Finset.inter_self, hcard, if_false]
  exact div_self (by exact_mod_cast hcard)

lemma jaccard_empty_right (F : Finset String) : jaccardSimilarity F ∅ = 0 := by
  simp [jaccardSimilarity]

lemma extractTrigrams_ne_empty {text : String} (hw : wordsOf text ≠ []) :
    extractTrigrams text ≠ ∅ := by
  obtain ⟨w, hwmem⟩ := List.exists_mem_of_ne_nil _ hw
  have : w ∈ extractTrigrams text := by
    simp only [extractTrigrams, List.mem_toFinset, List.mem_append]
    exact Or.inl (Or.inl hwmem)
  exact fun h => by simp [h] at this

lemma computeDissonance_keys (st : DissonanceState) (text : String) :
    (computeDissonance st text).2.2.cloudKeys = st.cloudKeys ∪ extractTrigrams text :=
  rfl

lemma computeDissonance_count (st : DissonanceState) (text : String) :
    (computeDissonance st text).2.2.boredomCount =
      if simThreshold < jaccardSimilarity (extractTrigrams text) st.cloudKeys
      then st.boredomCount + 1 else 0 :=
  rfl

lemma computeDissonance_val_boredom (st : DissonanceState) (text : String)
    (hsim : jaccardSimilarity (extractTrigrams text) st.cloudKeys = 1)
    (hcount : 1 ≤ st.boredomCount) :
    (computeDissonance st text).1 = 3/5 := by
  have hlt : simThreshold < (1 : ℚ) := by norm_num [simThreshold]
  have hc2 : boredomLimit ≤ st.boredomCount + 1 := by
    simp only [boredomLimit]; omega
  simp only [computeDissonance, hsim, hlt, if_true, hc2, and_true, if_pos]
  show clampQ 0 1 (1 - 1 - boredomPenalty + boredomBoost) = 3/5
  have : (1 : ℚ) - 1 - boredomPenalty + boredomBoost = 3/5 := by
    norm_num [boredomPenalty, boredomBoost]
  rw [this]
  unfold clampQ
  rw [min_eq_right (by norm_num), max_eq_right (by norm_num)]

lemma runDissonance_state (text : String) (hF : extractTrigrams text ≠ ∅) :
    ∀ k, (runDissonance text (k + 1)).2.cloudKeys = extractTrigrams text ∧
         (runDissonance text (k + 1)).2.boredomCount = k := by
  intro k
  induction k with
  | zero =>
    have hstep : (runDissonance text 1).2 = (computeDissonance freshEngine text).2.2 := rfl
    rw [hstep]
    constructor
    · rw [computeDissonance_keys]
      show (∅ : Finset String) ∪ extractTrigrams text = extractTrigrams text
      exact Finset.empty_union _
    · rw [computeDissonance_count]
      have h0 : jaccardSimilarity (extractTrigrams text) freshEngine.cloudKeys = 0 :=
        jaccard_empty_right _
      rw [h0, if_neg (by norm_num [simThreshold])]
  | succ m ih =>
    have hstep : (runDissonance text (m + 1 + 1)).2 =
        (computeDissonance (runDissonance text (m + 1)).2 text).2.2 := rfl
    have hsim : jaccardSimilarity (extractTrigrams text)
        (runDissonance text (m + 1)).2.cloudKeys = 1 := by
      rw [ih.1]; exact jaccard_self_of_ne_empty hF
    rw [hstep]
    constructor
    · rw [computeDissonance_keys, ih.1, Finset.union_self]
    · rw [computeDissonance_count, hsim, if_pos (by norm_num [simThreshold]), ih.2]

lemma extractTrigrams_space : extractTrigrams " " = ∅ := by decide

lemma runDissonance_no_features {text : String} (h : extractTrigrams text = ∅) :
    ∀ n, (runDissonance text n).2.cloudKeys = ∅ ∧
         (runDissonance text n).2.boredomCount = 0 := by
  intro n
  induction n with
  | zero => exact ⟨rfl, rfl⟩
  | succ m ih =>
    have hstep : (runDissonance text (m + 1)).2 =
        (computeDissonance (runDissonance text m).2 text).2.2 := rfl
    rw [hstep]
    refine ⟨?_, ?_⟩
    · rw [computeDissonance_keys, ih.1, h, Finset.union_empty]
    · rw [computeDissonance_count, ih.1, jaccard_empty_right,
        if_neg (by norm_num [simThreshold])]

/-- C3 counterexample: the one-space text is non-empty but has an empty
feature set, so similarity stays 0 on repetition, the boredom counter never
leaves 0, and after 3 identical calls `boredomCount = 0 < 2` — refuting the
claim for arbitrary non-empty input text. -/
theorem boredom_whitespace_counterexample :
    (" " : String) ≠ "" ∧
    ¬(2 ≤ (runDissonance " " 3).2.boredomCount ∧ 1/2 ≤ (runDissonance " " 3).1) := by
  refine ⟨by decide, fun h => ?_⟩
  have h0 := (runDissonance_no_features extractTrigrams_space 3).2
  omega

/-- C3 (amended): for every input text containing at least one
whitespace-delimited word (so its feature set is non-empty), feeding it 3 or
more consecutive times through `computeDissonance` on a fresh engine leaves
`boredomCount ≥ 2` and the dissonance returned by the latest call at least
0.5 (the boredom boost has fired). -/
theorem boredom_detection (text : String) (n : Nat)
    (hw : wordsOf text ≠ []) (hn : 3 ≤ n) :
    2 ≤ (runDissonance text n).2.boredomCount ∧
    1/2 ≤ (runDissonance text n).1 := by
  have hF : extractTrigrams text ≠ ∅ := extractTrigrams_ne_empty hw
  obtain ⟨m, rfl⟩ : ∃ m, n = m + 2 + 1 := ⟨n - 3, by omega⟩
  have hprev := runDissonance_state text hF (m + 1)
  have hstep1 : (runDissonance text (m + 1 + 1 + 1)).1 =
      (computeDissonance (runDissonance text (m + 1 + 1)).2 text).1 := rfl
  have hstate := runDissonance_state text hF (m + 1 + 1)
  constructor
  · rw [show m + 2 + 1 = m + 2 + 1 from rfl]
    have := (runDissonance_state text hF (m + 2)).2
    omega
  · have hsim : jaccardSimilarity (extractTrigrams text)
        (runDissonance text (m + 1 + 1)).2.cloudKeys = 1 := by
      rw [hprev.1]; exact jaccard_self_of_ne_empty hF
    have hcount : 1 ≤ (runDissonance text (m + 1 + 1)).2.boredomCount := by
      rw [hprev.2]; omega
    rw [show m + 2 + 1 = m + 1 + 1 + 1 from rfl, hstep1,
      computeDissonance_val_boredom _ _ hsim hcount]
    norm_num

/-- Concrete instantiation of the amended boredom-detection theorem. -/
theorem boredom_detection_witness :
    wordsOf "hello" ≠ [] ∧ 3 ≤ 3 ∧
    2 ≤ (runDissonance "hello" 3).2.boredomCount ∧
    1/2 ≤ (runDissonance "hello" 3).1 :=
  ⟨by decide, by norm_num, boredom_detection "hello" 3 (by decide) (by norm_num)⟩

lemma isPre_iff : ∀ (n s : List Char), isPre n s = true ↔ n <+: s
  | [], s => by simp [isPre]
  | a :: n, [] => by simp [isPre]
  | a :: n, b :: s => by
    rw [List.cons_prefix_cons]
    simp only [isPre, Bool.and_eq_true, beq_iff_eq]
    rw [isPre_iff n s]

lemma strIndexL_some_occ {n : List Char} :
    ∀ {s : List Char} {i : Nat}, strIndexL n s = some i → n <+: s.drop i := by
  intro s
  induction s with
  | nil =>
    intro i h
    unfold strIndexL at h
    split at h
    · rename_i hp
      injection h with h2
      subst h2
      exact (isPre_iff n []).mp hp
    · cases h
  | cons c t ih =>
    intro i h
    unfold strIndexL at h
    split at h
    · rename_i hp
      injection h with h2
      subst h2
      exact (isPre_iff n (c :: t)).mp hp
    · cases hx : strIndexL n t with
      | none => rw [hx] at h; cases h
      | some j =>
        rw [hx] at h
        injection h with h2
        subst h2
        rw [List.drop_succ_cons]
        exact ih hx

lemma strIndexL_some_least {n : List Char} :
    ∀ {s : List Char} {i : Nat}, strIndexL n s = some i →
      ∀ j, j < i → ¬ n <+: s.drop j := by
  intro s
  induction s with
  | nil =>
    intro i h j hj hocc
    unfold strIndexL at h
    split at h
    · injection h with h2; omega
    · cases h
  | cons c t ih =>
    intro i h j hj hocc
    unfold strIndexL at h
    split at h
    · injection h with h2; omega
    · rename_i hp
      cases hx : strIndexL n t with
      | none => rw [hx] at h; cases h
      | some j0 =>
        rw [hx] at h
        injection h with h2
        have h3 : j0 + 1 = i := h2
        cases j with
        | zero => exact hp ((isPre_iff n (c :: t)).mpr hocc)
        | succ jj =>
          rw [List.drop_succ_cons] at hocc
          exact ih hx jj (by omega) hocc

lemma strIndexL_none_occ {n : List Char} :
    ∀ {s : List Char}, strIndexL n s = none → ∀ j, ¬ n <+: s.drop j := by
  intro s
  induction s with
  | nil =>
    intro h j hocc
    unfold strIndexL at h
    split at h
    · cases h
    · rename_i hp
      rw [List.drop_nil] at hocc
      exact hp ((isPre_iff n []).mpr hocc)
  | cons c t ih =>
    intro h j hocc
    unfold strIndexL at h
    split at h
    · cases h
    · rename_i hp
      cases hx : strIndexL n t with
      | none =>
        cases j with
        | zero => exact hp ((isPre_iff n (c :: t)).mpr hocc)
        | succ jj =>
          rw [List.drop_succ_cons] at hocc
          exact ih hx jj hocc
      | some j0 => rw [hx] at h; cases h

lemma strIndexL_some_le {n : List Char} :
    ∀ {s : List Char} {i : Nat}, strIndexL n s = some i → i ≤ s.length := by
  intro s
  induction s with
  | nil =>
    intro i h
    unfold strIndexL at h
    split at h
    · injection h with h2; omega
    · cases h
  | cons c t ih =>
    intro i h
    unfold strIndexL at h
    split at h
    · injection h with h2; omega
    · cases hx : strIndexL n t with
      | none => rw [hx] at h; cases h
      | some j =>
        rw [hx] at h
        injection h with h2
        have h3 : j + 1 = i := h2
        have := ih hx
        simp only [List.length_cons]
        omega

lemma idxOrLen_le (sep s : List Char) : idxOrLen sep s ≤ s.length := by
  unfold idxOrLen
  cases hx : strIndexL sep s with
  | none => simp
  | some i => simpa using strIndexL_some_le hx

lemma truncAtSep_eq_take (s sep : List Char) : truncAtSep s sep = s.take (idxOrLen sep s) := by
  unfold truncAtSep idxOrLen
  cases hx : strIndexL sep s with
  | none => simp
  | some i => simp

lemma occ_fit {n s : List Char} {i : Nat} (hn : n ≠ []) (h : n <+: s.drop i) :
    i + n.length ≤ s.length := by
  have h1 : n.length ≤ (s.drop i).length := h.length_le
  rw [List.length_drop] at h1
  have h2 : n.length ≠ 0 := by simpa using hn
  omega

lemma pre_take_iff {n t : List Char} {k : Nat} :
    n <+: t.take k ↔ n <+: t ∧ n.length ≤ k := by
  constructor
  · intro h
    have h2 : n <+: t := h.trans ⟨t.drop k, List.take_append_drop k t⟩
    have h3 : n.length ≤ (t.take k).length := h.length_le
    rw [List.length_take] at h3
    exact ⟨h2, le_trans h3 (min_le_left _ _)⟩
  · rintro ⟨h, hk⟩
    have he : n = t.take n.length := List.prefix_iff_eq_take.mp h
    have he2 : n = (t.take k).take n.length := by
      rw [List.take_take, min_eq_left hk, ← he]
    exact List.prefix_iff_eq_take.mpr he2

lemma occ_take_iff {n s : List Char} {c j : Nat} (hn : n ≠ []) :
    n <+: (s.take c).drop j ↔ (n <+: s.drop j ∧ j + n.length ≤ c) := by
  rw [List.drop_take, pre_take_iff]
  have h2 : n.length ≠ 0 := by simpa using hn
  constructor
  · rintro ⟨h, hk⟩; exact ⟨h, by omega⟩
  · rintro ⟨h, hk⟩; exact ⟨h, by omega⟩

lemma occ_char {n s : List Char} {m k : Nat} (h : n <+: s.drop m) (hk : k < n.length) :
    s[m + k]? = n[k]? := by
  have h1 : n[k]? = (s.drop m)[k]? := by
    rw [List.getElem?_eq_getElem hk, List.getElem?_eq_getElem (hk.trans_le h.length_le)]
    exact congrArg some (List.IsPrefix.getElem h hk)
  rw [h1, List.getElem?_drop]

lemma sepOk_shape {sep : List Char} (h : SepOk sep) :
    ∃ r, sep = ',' :: r ∧ ',' ∉ r := by
  obtain ⟨h1, h2, h3⟩ := h
  cases sep with
  | nil => exact absurd rfl h1
  | cons a r =>
    simp only [List.headD_cons] at h2
    subst h2
    exact ⟨r, rfl, by simpa using h3⟩

lemma no_overlap {s sep1 sep2 : List Char} {m c : Nat}
    (h1 : SepOk sep1) (h2 : SepOk sep2)
    (o1 : sep1 <+: s.drop m) (o2 : sep2 <+: s.drop c)
    (hmc : m < c) (hcm : c < m + sep1.length) : False := by
  obtain ⟨r1, rfl, hr1⟩ := sepOk_shape h1
  obtain ⟨r2, rfl, hr2⟩ := sepOk_shape h2
  have e2 : s[c + 0]? = some ',' := by
    rw [occ_char o2 (by simp)]
    simp
  have hk : c - m < (',' :: r1).length := by
    simp only [List.length_cons] at hcm ⊢
    omega
  have e1 : s[m + (c - m)]? = (',' :: r1)[c - m]? := occ_char o1 hk
  rw [show m + (c - m) = c + 0 by omega, e2] at e1
  obtain ⟨kk, hkk⟩ : ∃ kk, c - m = kk + 1 := ⟨c - m - 1, by omega⟩
  rw [hkk, List.getElem?_cons_succ] at e1
  exact hr1 (List.getElem?_mem e1.symm)

lemma idxOrLen_eq_of_none {sep s : List Char} (h : strIndexL sep s = none) :
    idxOrLen sep s = s.length := by
  unfold idxOrLen; rw [h]; rfl

lemma idxOrLen_eq_of_some {sep s : List Char} {i : Nat} (h : strIndexL sep s = some i) :
    idxOrLen sep s = i := by
  unfold idxOrLen; rw [h]; rfl

lemma idxOrLen_take {sep sepb : List Char} (h : SepOk sep) (hb : SepOk sepb) (s : List Char) :
    min (idxOrLen sep s) (idxOrLen sepb (s.take (idxOrLen sep s))) =
    min (idxOrLen sep s) (idxOrLen sepb s) := by
  have hnb : sepb ≠ [] := hb.1
  have hlb : sepb.length ≠ 0 := by simpa using hnb
  have hi0 : idxOrLen sep s ≤ s.length := idxOrLen_le sep s
  have hlt : (s.take (idxOrLen sep s)).length = idxOrLen sep s := by
    rw [List.length_take]; omega
  cases hx : strIndexL sepb s with
  | none =>
    have hnone : strIndexL sepb (s.take (idxOrLen sep s)) = none := by
      cases hy : strIndexL sepb (s.take (idxOrLen sep s)) with
      | none => rfl
      | some jt =>
        have hocc := strIndexL_some_occ hy
        rw [occ_take_iff hnb] at hocc
        exact absurd hocc.1 (strIndexL_none_occ hx jt)
    rw [idxOrLen_eq_of_none hx, idxOrLen_eq_of_none hnone, hlt]
    omega
  | some j =>
    have hoccj := strIndexL_some_occ hx
    rw [idxOrLen_eq_of_some hx]
    by_cases hge : idxOrLen sep s ≤ j
    · have hnone : strIndexL sepb (s.take (idxOrLen sep s)) = none := by
        cases hy : strIndexL sepb (s.take (idxOrLen sep s)) with
        | none => rfl
        | some jt =>
          have hocc := strIndexL_some_occ hy
          rw [occ_take_iff hnb] at hocc
          exact absurd hocc.1 (strIndexL_some_least hx jt (by omega))
      rw [idxOrLen_eq_of_none hnone, hlt]
      omega
    · push_neg at hge
      by_cases hfit : j + sepb.length ≤ idxOrLen sep s
      · have hocct : sepb <+: (s.take (idxOrLen sep s)).drop j := by
          rw [occ_take_iff hnb]; exact ⟨hoccj, hfit⟩
        obtain ⟨jt, hy⟩ : ∃ jt, strIndexL sepb (s.take (idxOrLen sep s)) = some jt := by
          cases hy : strIndexL sepb (s.take (idxOrLen sep s)) with
          | none => exact absurd hocct (strIndexL_none_occ hy j)
          | some jt => exact ⟨jt, rfl⟩
        have ht1 : jt ≤ j := by
          by_contra hgt
          push_neg at hgt
          exact strIndexL_some_least hy j hgt hocct
        have ht2 : j ≤ jt := by
          have hocc := strIndexL_some_occ hy
          rw [occ_take_iff hnb] at hocc
          by_contra hgt
          push_neg at hgt
          exact strIndexL_some_least hx jt hgt hocc.1
        rw [idxOrLen_eq_of_some hy]
        omega
      · push_neg at hfit
        exfalso
        cases hz : strIndexL sep s with
        | none =>
          have hfits := occ_fit hnb hoccj
          have := idxOrLen_eq_of_none hz
          omega
        | some iz =>
          have hocci := strIndexL_some_occ hz
          have hieq := idxOrLen_eq_of_some hz
          exact no_overlap hb h hoccj hocci (by omega) (by omega)

lemma minCutAll_cons (sep : List Char) (L : List (List Char)) (s : List Char) :
    minCutAll (sep :: L) s = min (idxOrLen sep s) (minCutAll L s) :=
  rfl

lemma minCutAll_le (L : List (List Char)) (s : List Char) : minCutAll L s ≤ s.length := by
  induction L with
  | nil => exact le_refl _
  | cons sep L ih =>
    rw [minCutAll_cons]
    omega

lemma minCutAll_take : ∀ (L : List (List Char)), (∀ x ∈ L, SepOk x) →
    ∀ (sep : List Char), SepOk sep → ∀ (s : List Char),
    min (idxOrLen sep s) (minCutAll L (s.take (idxOrLen sep s))) =
    min (idxOrLen sep s) (minCutAll L s)
  | [], _, sep, h, s => by
    show min _ (s.take _).length = min _ s.length
    rw [List.length_take]
    have := idxOrLen_le sep s
    omega
  | sepb :: L, hL, sep, h, s => by
    have e1 := idxOrLen_take h (hL sepb (by simp)) s
    have e2 := minCutAll_take L (fun x hx => hL x (by simp [hx])) sep h s
    rw [minCutAll_cons, minCutAll_cons]
    omega

lemma foldl_trunc_eq : ∀ (L : List (List Char)), (∀ x ∈ L, SepOk x) → ∀ (s : List Char),
    L.foldl truncAtSep s = s.take (minCutAll L s)
  | [], _, s => by
    show s = s.take s.length
    exact (List.take_length s).symm
  | sep :: L, hL, s => by
    have h : SepOk sep := hL sep (by simp)
    have hstep : (sep :: L).foldl truncAtSep s = L.foldl truncAtSep (truncAtSep s sep) := rfl
    rw [hstep, truncAtSep_eq_take,
      foldl_trunc_eq L (fun x hx => hL x (by simp [hx])) (s.take (idxOrLen sep s)),
      List.take_take]
    congr 1
    have e := minCutAll_take L (fun x hx => hL x (by simp [hx])) sep h s
    have hlt : (s.take (idxOrLen sep s)).length = idxOrLen sep s := by
      rw [List.length_take]
      have := idxOrLen_le sep s
      omega
    have hle : minCutAll L (s.take (idxOrLen sep s)) ≤ (s.take (idxOrLen sep s)).length :=
      minCutAll_le _ _
    rw [minCutAll_cons]
    omega

lemma sepsOk : ∀ x ∈ sepsL, SepOk x := by decide

/-- C2: for every artist output, the `YentWords` field of the `DualResult`
returned by `React` equals the artist output truncated at the minimal index,
over the whole fixed delimiter list, of any style-suffix delimiter occurrence
(and equals the output unchanged when none occurs); the `Prompt` field is the
untruncated artist output.  The sequential truncation loop of the source
agrees with this minimal-index description because every delimiter starts
with a comma and contains no later comma, so one truncation can never destroy
an earlier occurrence of another delimiter. -/
theorem react_yentWords_minimal_truncation (dy : DualYentM) (input : String)
    (mt : Nat) (temp : ℚ) :
    (dy.React input mt temp).2.YentWords =
      specYentWords ((dy.React input mt temp).2.Prompt) ∧
    (dy.React input mt temp).2.Prompt =
      (if (dy.turn + 1) % 2 = 0 then dy.A else dy.B).react input mt temp := by
  refine ⟨?_, rfl⟩
  show extractYentWords ((dy.React input mt temp).2.Prompt) =
    specYentWords ((dy.React input mt temp).2.Prompt)
  unfold extractYentWords specYentWords
  exact congrArg String.mk (foldl_trunc_eq sepsL sepsOk _)
